import Mathlib

/-!
Verification of the immer repository's specification against its sources.

The repository ships two source files: the Guile language binding
(extra/guile/src/immer.cpp, which also carries the immer::set facade header)
and the box-archive test (test/extra/archive/test_box.cpp).  The champ trie
engine (immer/detail/hamts/champ.hpp) and the box archive implementation
(immer/extra/archive/box/archive.hpp) are declared and exercised by these
files but are not themselves present, so they are modelled from the
specification (sections 3, 4.1, 4.4, 4.5), faithful to its words.
-/

namespace ImmerSpec

/-! ## Content-addressed box archive

Modelled from the spec: immer/extra/archive/box/archive.hpp is not in src.
A box is the trivial single-value container; `save_to_archive` assigns a
content identity: equal content receives the identity already stored, fresh
content is appended under the next identity (content addressing: identical
content maps to one stored representation, distinct content to distinct ids).
-/

/-- Modelled from the spec: immer::box, a single-value container; the
test accesses its content with .get() and rebuilds it with .update(). -/
structure Box (T : Type) where
  get : T
  deriving DecidableEq

/-- Modelled from the spec: box.update(fn) returns a box holding fn applied
to the current content. -/
def Box.update {T : Type} (b : Box T) (f : T → T) : Box T :=
  ⟨f b.get⟩

/-- container_id: an opaque, stable, comparable token identifying one
archived container snapshot within an archive. -/
abbrev ContainerId := Nat

/-- Modelled from the spec: the save-side archive, the mapping from node
identity to serialized node description.  For a box the description is the
stored value itself; identity i maps to nodes[i]. -/
structure ArchiveSave (T : Type) where
  nodes : List T
  deriving DecidableEq

/-- Position of the first occurrence of v in a list, the content-addressed
identity lookup of the save engine. -/
def idxOf {T : Type} [DecidableEq T] (v : T) : List T → Option Nat
  | [] => none
  | w :: rest => if w = v then some 0 else (idxOf v rest).map (· + 1)

/-- Modelled from the spec: make_save_archive_for creates an empty archive
scoped to the container's element type. -/
def make_save_archive_for {T : Type} (_ : Box T) : ArchiveSave T :=
  ⟨[]⟩

/-- Modelled from the spec: save_to_archive(container, archive) returns the
possibly-extended archive and the container_id.  If an entry with the
content identity already exists in the archive it is reused (no new
storage); otherwise the content is inserted under a fresh identity. -/
def save_to_archive {T : Type} [DecidableEq T] (b : Box T) (ar : ArchiveSave T) :
    ArchiveSave T × ContainerId :=
  match idxOf b.get ar.nodes with
  | some i => (ar, i)
  | none => (⟨ar.nodes ++ [b.get]⟩, ar.nodes.length)

/-- Modelled from the spec: the load-side archive, the same identity-to-
description mapping in the representation the Loader consumes. -/
structure ArchiveLoad (T : Type) where
  nodes : List T
  deriving DecidableEq

/-- Modelled from the spec: to_load_archive converts a save archive into a
load archive; a pure, lossless reshaping of the mapping. -/
def to_load_archive {T : Type} (ar : ArchiveSave T) : ArchiveLoad T :=
  ⟨ar.nodes⟩

/-- Modelled from the spec: the transferable form of an archive, the
in-memory model handed to an external codec (the JSON encoding itself is an
external codec's concern and out of scope). -/
def to_transferable_form {T : Type} (ar : ArchiveSave T) : List T :=
  ar.nodes

/-- Modelled from the spec: decoding the transferable form back into the
representation the Loader consumes. -/
def from_transferable_form {T : Type} (l : List T) : ArchiveLoad T :=
  ⟨l⟩

/-- A reconstructed box as returned by the loader: its content together
with the identity of the underlying reconstructed node (the allocation
token observed by .impl(); identity equality of nodes is equality of this
token). -/
structure LoadedBox (T : Type) where
  get : T
  node : Nat
  deriving DecidableEq

/-- The distinguishable not-found condition of loader.load on an unknown
container_id. -/
inductive LoadError : Type where
  | notFound
  deriving DecidableEq

/-- Modelled from the spec: a Loader bound to one load archive, holding a
cache from node identity to the already-reconstructed node so that sharing
is reproduced, plus the count of reconstructions performed (each
reconstruction allocates one fresh node token). -/
structure Loader (T : Type) where
  archive : ArchiveLoad T
  cache : List (ContainerId × LoadedBox T)
  allocCount : Nat
  deriving DecidableEq

/-- First cache entry for the given identity, if any. -/
def lookupCache {T : Type} (id : ContainerId) :
    List (ContainerId × LoadedBox T) → Option (LoadedBox T)
  | [] => none
  | (i, b) :: rest => if i = id then some b else lookupCache id rest

/-- Modelled from the spec: make_loader_for binds a fresh Loader (empty
cache, no reconstructions yet) to a concrete load archive; the empty
container argument only fixes the target container type. -/
def make_loader_for {T : Type} (_ : Box T) (ar : ArchiveLoad T) : Loader T :=
  ⟨ar, [], 0⟩

/-- Modelled from the spec: loader.load(container_id) resolves the identity
to its node description, memoized per Loader instance: a cached identity is
answered from the cache with no reconstruction; otherwise the description
is looked up, a node is reconstructed once (consuming one fresh allocation
token) and cached; an unknown identity fails with the not-found
condition. -/
def Loader.load {T : Type} (L : Loader T) (id : ContainerId) :
    Except LoadError (LoadedBox T × Loader T) :=
  match lookupCache id L.cache with
  | some b => .ok (b, L)
  | none =>
    match L.archive.nodes[id]? with
    | some v =>
      .ok (⟨v, L.allocCount⟩,
        { L with
          cache := (id, ⟨v, L.allocCount⟩) :: L.cache
          allocCount := L.allocCount + 1 })
    | none => .error .notFound

/-! ### Basic archive lemmas -/

theorem idxOf_get {T : Type} [DecidableEq T] {v : T} {l : List T} {i : Nat}
    (h : idxOf v l = some i) : l[i]? = some v := by
  induction l generalizing i with
  | nil => simp [idxOf] at h
  | cons w rest ih =>
    by_cases hw : w = v
    · simp [idxOf, hw] at h
      subst h
      simp [hw]
    · simp [idxOf, hw] at h
      obtain ⟨j, hj, rfl⟩ := h
      simpa using ih hj

theorem idxOf_append_self {T : Type} [DecidableEq T] {v : T} {l : List T}
    (h : idxOf v l = none) : idxOf v (l ++ [v]) = some l.length := by
  induction l with
  | nil => simp [idxOf]
  | cons w rest ih =>
    by_cases hw : w = v
    · simp [idxOf, hw] at h
    · simp [idxOf, hw] at h
      simp [idxOf, hw, ih h]

theorem save_mem_nodes {T : Type} [DecidableEq T] (b : Box T) (ar : ArchiveSave T) :
    ((save_to_archive b ar).1).nodes[(save_to_archive b ar).2]? = some b.get := by
  unfold save_to_archive
  cases h : idxOf b.get ar.nodes with
  | some i => simpa using idxOf_get h
  | none => simp

theorem idxOf_after_save {T : Type} [DecidableEq T] (b : Box T) (ar : ArchiveSave T) :
    idxOf b.get ((save_to_archive b ar).1).nodes = some (save_to_archive b ar).2 := by
  unfold save_to_archive
  cases h : idxOf b.get ar.nodes with
  | some i => simpa using h
  | none => simpa using idxOf_append_self h

theorem lookupCache_none_of_bound {T : Type} {id : ContainerId} {n : Nat}
    {c : List (ContainerId × LoadedBox T)}
    (hc : ∀ p ∈ c, p.1 < n) (hid : n ≤ id) : lookupCache id c = none := by
  induction c with
  | nil => rfl
  | cons p rest ih =>
    cases p with
    | mk i b =>
      have hp : i < n := by simpa using hc (i, b) (by simp)
      have hne : i ≠ id := Nat.ne_of_lt (Nat.lt_of_lt_of_le hp hid)
      simp only [lookupCache]
      rw [if_neg hne]
      exact ih fun q hq => hc q (by simp [hq])

/-! ### Claim C1 -/

/-- C1: for every archive and every two boxes with equal content (however
they were built), saving the second after the first returns the same
container_id and leaves the archive unchanged; in particular the archive's
node count after the second save equals the count before it. -/
theorem save_to_archive_content_addressed {T : Type} [DecidableEq T]
    (ar : ArchiveSave T) (b1 b2 : Box T) (h : b1.get = b2.get) :
    (save_to_archive b2 (save_to_archive b1 ar).1).2 = (save_to_archive b1 ar).2 ∧
    (save_to_archive b2 (save_to_archive b1 ar).1).1 = (save_to_archive b1 ar).1 ∧
    ((save_to_archive b2 (save_to_archive b1 ar).1).1).nodes.length =
      ((save_to_archive b1 ar).1).nodes.length := by
  have hidx := idxOf_after_save b1 ar
  rw [h] at hidx
  refine ⟨?_, ?_, ?_⟩ <;>
    · conv_lhs => rw [save_to_archive, hidx]

/-- Witness for C1 at a concrete archive and pair of equal-content boxes. -/
theorem save_to_archive_content_addressed_witness :
    (save_to_archive (⟨5⟩ : Box Nat) (save_to_archive ⟨5⟩ (⟨[7]⟩ : ArchiveSave Nat)).1).2 =
      (save_to_archive (⟨5⟩ : Box Nat) (⟨[7]⟩ : ArchiveSave Nat)).2 ∧
    (save_to_archive (⟨5⟩ : Box Nat) (save_to_archive ⟨5⟩ (⟨[7]⟩ : ArchiveSave Nat)).1).1 =
      (save_to_archive (⟨5⟩ : Box Nat) (⟨[7]⟩ : ArchiveSave Nat)).1 ∧
    ((save_to_archive (⟨5⟩ : Box Nat) (save_to_archive ⟨5⟩ (⟨[7]⟩ : ArchiveSave Nat)).1).1).nodes.length =
      ((save_to_archive (⟨5⟩ : Box Nat) (⟨[7]⟩ : ArchiveSave Nat)).1).nodes.length :=
  save_to_archive_content_addressed ⟨[7]⟩ ⟨5⟩ ⟨5⟩ rfl

/-! ### Claim C2 -/

/-- C2: a container saved under an id is reproduced by loading that same id
after converting the archive to the Loader's representation, both through
the transferable (external-codec) form and directly via to_load_archive;
the two conversion paths agree, and the id on the load side is the very id
returned by save. -/
theorem save_load_roundtrip {T : Type} [DecidableEq T] (ar : ArchiveSave T) (b e : Box T) :
    (((make_loader_for e (to_load_archive (save_to_archive b ar).1)).load
        (save_to_archive b ar).2).toOption.map (fun p => (p.1).get) = some b.get) ∧
    (((make_loader_for e (from_transferable_form
          (to_transferable_form (save_to_archive b ar).1))).load
        (save_to_archive b ar).2).toOption.map (fun p => (p.1).get) = some b.get) ∧
    from_transferable_form (to_transferable_form (save_to_archive b ar).1) =
      to_load_archive (save_to_archive b ar).1 := by
  have hmem := save_mem_nodes b ar
  refine ⟨?_, ?_, rfl⟩ <;>
    · simp [Loader.load, make_loader_for, lookupCache, to_load_archive,
        from_transferable_form, to_transferable_form, hmem, Except.toOption]

/-! ### Claim C3 -/

/-- C3: loading an id a second time from the same Loader returns the very
cached node produced by the first load — the result is the same LoadedBox
(in particular the same underlying node token, identity equality and not
merely value equality) and the Loader is unchanged (allocCount stays, so
reconstruction happened at most once per identity). -/
theorem load_memoized {T : Type} (L : Loader T) (id : ContainerId)
    (b : LoadedBox T) (L1 : Loader T) (h : L.load id = .ok (b, L1)) :
    L1.load id = .ok (b, L1) := by
  unfold Loader.load at h ⊢
  cases hc : lookupCache id L.cache with
  | some b0 =>
    rw [hc] at h
    simp only [Except.ok.injEq, Prod.mk.injEq] at h
    obtain ⟨rfl, rfl⟩ := h
    rw [hc]
  | none =>
    rw [hc] at h
    cases ha : L.archive.nodes[id]? with
    | some v =>
      rw [ha] at h
      simp only [Except.ok.injEq, Prod.mk.injEq] at h
      obtain ⟨rfl, rfl⟩ := h
      simp [lookupCache]
    | none => rw [ha] at h; exact absurd h (by simp)

/-- Witness for C3: a concrete loader whose first load succeeds, on which
the second load returns the identical cached node. -/
theorem load_memoized_witness :
    Loader.load (⟨⟨[5]⟩, [(0, ⟨5, 0⟩)], 1⟩ : Loader Nat) 0 =
      .ok ((⟨5, 0⟩ : LoadedBox Nat), (⟨⟨[5]⟩, [(0, ⟨5, 0⟩)], 1⟩ : Loader Nat)) :=
  load_memoized (make_loader_for ⟨0⟩ ⟨[5]⟩) 0 ⟨5, 0⟩ ⟨⟨[5]⟩, [(0, ⟨5, 0⟩)], 1⟩ rfl

/-! ### Claim C4 -/

/-- The box holding the string given in the test scenario. -/
def scenarioBox1 : Box String := ⟨"hello"⟩

/-- First save of the scenario: saving the box into a fresh archive. -/
def scenarioSave1 : ArchiveSave String × ContainerId :=
  save_to_archive scenarioBox1 (make_save_archive_for scenarioBox1)

/-- The mutated box of the scenario, as in the test's update call. -/
def scenarioBox2 : Box String := scenarioBox1.update (fun s => s ++ " world")

/-- Second save of the scenario: saving the mutated box into the same
archive. -/
def scenarioSave2 : ArchiveSave String × ContainerId :=
  save_to_archive scenarioBox2 scenarioSave1.1

/-- The loader of the scenario, bound to the final archive. -/
def scenarioLoader : Loader String :=
  make_loader_for ⟨""⟩ (to_load_archive scenarioSave2.1)

/-- The loader state after loading the first id of the scenario. -/
def scenarioLoaderAfter1 : Loader String :=
  ⟨⟨["hello", "hello world"]⟩, [(0, ⟨"hello", 0⟩)], 1⟩

/-- The loader state after loading both ids of the scenario. -/
def scenarioLoaderAfter2 : Loader String :=
  ⟨⟨["hello", "hello world"]⟩, [(1, ⟨"hello world", 1⟩), (0, ⟨"hello", 0⟩)], 2⟩

/-- C4: saving a box holding "hello", mutating it to "hello world" and
saving again yields two different ids; from the resulting archive, loading
the first id still yields "hello" and loading the second yields
"hello world" — the later save does not alter the earlier snapshot. -/
theorem save_mutate_box :
    scenarioSave1.2 ≠ scenarioSave2.2 ∧
    scenarioLoader.load scenarioSave1.2 =
      .ok (⟨"hello", 0⟩, scenarioLoaderAfter1) ∧
    scenarioLoaderAfter1.load scenarioSave2.2 =
      .ok (⟨"hello world", 1⟩, scenarioLoaderAfter2) :=
  ⟨by decide, rfl, rfl⟩

/-! ### Claim C9 -/

/-- C9: for every loader whose cached identities all lie in the archive
(as holds for every loader the API constructs) and every container_id that
was never inserted into its archive, load fails with the distinguishable
not-found condition — it does not return a container and does not crash. -/
theorem load_unknown_id_notFound {T : Type} (L : Loader T) (id : ContainerId)
    (hcache : ∀ p ∈ L.cache, p.1 < L.archive.nodes.length)
    (hid : L.archive.nodes.length ≤ id) :
    L.load id = .error .notFound := by
  unfold Loader.load
  rw [lookupCache_none_of_bound hcache hid, List.getElem?_eq_none hid]

/-- Witness for C9 on a fresh loader over an empty archive. -/
theorem load_unknown_id_notFound_witness :
    Loader.load (make_loader_for (⟨0⟩ : Box Nat) ⟨[]⟩) 3 = .error .notFound :=
  load_unknown_id_notFound (make_loader_for ⟨0⟩ ⟨[]⟩) 3 (by simp [make_loader_for])
    (by simp [make_loader_for])

/-! ### Claim C10 -/

/-- Translated from extra/guile/src/immer.cpp, the ivector maker lambda:
self_t(n, rest ? *rest : scm::val\x7b\x7d).  Modelled from the spec: the
flex_vector fill constructor (not in src) fills the vector with n copies of
the given value; the default-constructed scm::val is the default element. -/
def ivectorMake (V : Type) [Inhabited V] (n : Nat) (rest : Option V) : List V :=
  List.replicate n (match rest with | some v => v | none => (default : V))

/-- C10: the ivector maker with the fill value omitted builds a vector of n
copies of the default-constructed value, and with a fill value supplied it
builds n copies of that value. -/
theorem ivectorMake_fill (V : Type) [Inhabited V] (n : Nat) (v : V) :
    ivectorMake V n none = List.replicate n (default : V) ∧
    ivectorMake V n (some v) = List.replicate n v :=
  ⟨rfl, rfl⟩

/-! ## Hashed trie engine and set facade

Modelled from the spec: immer/detail/hamts/champ.hpp is not in src; the
immer::set facade (which is in src, delegating to champ) is translated on
top of it.  Per spec 4.1: the key hash is split into B-bit chunks, one
consumed per trie level to select a bitmap slot; a branch node holds, for
each occupied slot, either a child node or an inline stored value;
collisions at maximum depth degrade to a collision node holding all
colliding entries compared by equality.
-/

mutual
/-- Modelled from the spec: a trie node is a tagged variant, either a
branch (bitmap of occupied slots, each slot holding a child node or an
inline value; represented as the association list from occupied slot index
to slot content) or a collision node (a short list of values whose hashes
coincide at maximum depth). -/
inductive Node (α : Type) : Type where
  | collision : List α → Node α
  | branch : List (Nat × SlotEntry α) → Node α

/-- The content of one occupied branch slot: a child node or an inline
stored value. -/
inductive SlotEntry (α : Type) : Type where
  | value : α → SlotEntry α
  | child : Node α → SlotEntry α
end

/-- Modelled from the spec: the B-bit chunk of the hash consumed at trie
level l, selecting the branch slot at that level. -/
def chunk {α : Type} (hf : α → Nat) (B : Nat) (v : α) (l : Nat) : Nat :=
  hf v / 2 ^ (B * l) % 2 ^ B

/-- Content of the slot with the given index, if occupied (first entry of
the association list with that key). -/
def getSlot {α : Type} (idx : Nat) : List (Nat × SlotEntry α) → Option (SlotEntry α)
  | [] => none
  | (i, e) :: rest => if i = idx then some e else getSlot idx rest

/-- Replace the content of the (occupied) slot with the given index. -/
def setSlot {α : Type} (idx : Nat) (e : SlotEntry α) :
    List (Nat × SlotEntry α) → List (Nat × SlotEntry α)
  | [] => []
  | (i, e0) :: rest =>
    if i = idx then (i, e) :: rest else (i, e0) :: setSlot idx e rest

/-- Clear the slot with the given index. -/
def delSlot {α : Type} (idx : Nat) :
    List (Nat × SlotEntry α) → List (Nat × SlotEntry α)
  | [] => []
  | (i, e0) :: rest =>
    if i = idx then rest else (i, e0) :: delSlot idx rest

theorem sizeOf_getSlot {α : Type} {idx : Nat} :
    ∀ {slots : List (Nat × SlotEntry α)} {e : SlotEntry α},
      getSlot idx slots = some e → sizeOf e < sizeOf slots := by
  intro slots
  induction slots with
  | nil => intro e h; simp [getSlot] at h
  | cons p rest ih =>
    intro e h
    cases p with
    | mk i e0 =>
      simp only [getSlot] at h
      by_cases hi : i = idx
      · rw [if_pos hi] at h
        cases h
        simp
        omega
      · rw [if_neg hi] at h
        have := ih h
        simp
        omega

/-- Modelled from the spec: membership lookup, consuming one hash chunk
per level; an inline value is compared by equality, a collision node by
membership of its list. -/
def memberNode {α : Type} [DecidableEq α] (hf : α → Nat) (B : Nat) (v : α) :
    Nat → Node α → Bool
  | _, .collision vs => decide (v ∈ vs)
  | l, .branch slots =>
    match hg : getSlot (chunk hf B v l) slots with
    | none => false
    | some (.value w) => decide (v = w)
    | some (.child c) => memberNode hf B v (l + 1) c
termination_by _ n => sizeOf n
decreasing_by
  have := sizeOf_getSlot hg
  simp at this ⊢
  omega

/-- Modelled from the spec: push two distinct values whose hash chunks
collided at the parent level into a fresh subtree; once the hash is
exhausted (fuel counts the levels left until maximum depth) they form a
collision node, otherwise they land inline in a deeper branch, in one slot
or two according to their chunks at that level. -/
def mergeVals {α : Type} (hf : α → Nat) (B : Nat) (w v : α) :
    Nat → Nat → Node α
  | 0, _ => .collision [w, v]
  | fuel + 1, l =>
    if chunk hf B w l = chunk hf B v l then
      .branch [(chunk hf B w l, .child (mergeVals hf B w v fuel (l + 1)))]
    else
      .branch [(chunk hf B w l, .value w), (chunk hf B v l, .value v)]

/-- Modelled from the spec: insertion along the single root-to-leaf path
selected by the hash chunks.  An empty slot takes the value inline; an
equal inline value leaves the node as is; a different inline value is
pushed down together with the new one; a child slot is replaced by the
child with the value inserted; a collision node adds the value unless
present. -/
def insertNode {α : Type} [DecidableEq α] (hf : α → Nat) (B maxD : Nat) (v : α) :
    Nat → Node α → Node α
  | _, .collision vs => if v ∈ vs then .collision vs else .collision (v :: vs)
  | l, .branch slots =>
    match hg : getSlot (chunk hf B v l) slots with
    | none => .branch ((chunk hf B v l, .value v) :: slots)
    | some (.value w) =>
      if v = w then .branch slots
      else
        .branch (setSlot (chunk hf B v l)
          (.child (mergeVals hf B w v (maxD - (l + 1)) (l + 1))) slots)
    | some (.child c) =>
      .branch (setSlot (chunk hf B v l)
        (.child (insertNode hf B maxD v (l + 1) c)) slots)
termination_by _ n => sizeOf n
decreasing_by
  have := sizeOf_getSlot hg
  simp at this ⊢
  omega

/-- Modelled from the spec: removal along the single path selected by the
hash chunks.  An empty slot or a different inline value leaves the node as
is; the equal inline value has its slot cleared; a child slot is replaced
by the child with the value removed; a collision node drops the value. -/
def removeNode {α : Type} [DecidableEq α] (hf : α → Nat) (B : Nat) (v : α) :
    Nat → Node α → Node α
  | _, .collision vs => .collision (vs.filter (fun w => !decide (w = v)))
  | l, .branch slots =>
    match hg : getSlot (chunk hf B v l) slots with
    | none => .branch slots
    | some (.value w) =>
      if w = v then .branch (delSlot (chunk hf B v l) slots)
      else .branch slots
    | some (.child c) =>
      .branch (setSlot (chunk hf B v l)
        (.child (removeNode hf B v (l + 1) c)) slots)
termination_by _ n => sizeOf n
decreasing_by
  have := sizeOf_getSlot hg
  simp at this ⊢
  omega

mutual
/-- All values stored in a node, in trie order. -/
def allValues {α : Type} : Node α → List α
  | .collision vs => vs
  | .branch slots => slotsValues slots

/-- All values stored under a list of slots. -/
def slotsValues {α : Type} : List (Nat × SlotEntry α) → List α
  | [] => []
  | (_, .value w) :: rest => w :: slotsValues rest
  | (_, .child c) :: rest => allValues c ++ slotsValues rest
end

/-- Well-formedness of a node at a level: occupied slot indices are
distinct, each inline value sits in the slot selected by its own hash
chunk at this level, and every value below a child slot has that slot's
index as its chunk at this level, the child being well-formed one level
deeper.  Containers built through the public interface satisfy this. -/
inductive WFe {α : Type} (hf : α → Nat) (B : Nat) : Node α → Nat → Prop where
  | collision (vs : List α) (l : Nat) : WFe hf B (.collision vs) l
  | branch (slots : List (Nat × SlotEntry α)) (l : Nat)
      (hkeys : (slots.map Prod.fst).Nodup)
      (hval : ∀ i w, (i, SlotEntry.value w) ∈ slots → chunk hf B w l = i)
      (hchunk : ∀ i c, (i, SlotEntry.child c) ∈ slots →
        ∀ x ∈ allValues c, chunk hf B x l = i)
      (hchild : ∀ i c, (i, SlotEntry.child c) ∈ slots → WFe hf B c (l + 1)) :
      WFe hf B (.branch slots) l

/-- Translated from the immer::set facade in src: a persistent container
is a root node together with its element count. -/
structure HSet (α : Type) : Type where
  root : Node α
  size : Nat

/-- Translated from src: the default-constructed set, of size zero. -/
def emptySet {α : Type} : HSet α :=
  ⟨.branch [], 0⟩

/-- Translated from src: membership at the root (impl_.get with the two
constant continuations collapses to this Boolean). -/
def setMember {α : Type} [DecidableEq α] (hf : α → Nat) (B : Nat)
    (C : HSet α) (v : α) : Bool :=
  memberNode hf B v 0 C.root

/-- Translated from src: count returns 1 when the value is contained and
0 otherwise. -/
def setCount {α : Type} [DecidableEq α] (hf : α → Nat) (B : Nat)
    (C : HSet α) (v : α) : Nat :=
  if setMember hf B C v then 1 else 0

/-- Translated from src: size returns the stored element count. -/
def setSize {α : Type} (C : HSet α) : Nat :=
  C.size

/-- Translated from src: insert returns a set containing the value; if the
value is already in the set, it returns the same set (per the facade's
documented contract, with champ.add modelled from the spec). -/
def setInsert {α : Type} [DecidableEq α] (hf : α → Nat) (B maxD : Nat)
    (C : HSet α) (v : α) : HSet α :=
  if setMember hf B C v then C
  else ⟨insertNode hf B maxD v 0 C.root, C.size + 1⟩

/-- Translated from src: erase returns a set without the value; if the
value is not in the set, it returns the same set (per the facade's
documented contract, with champ.sub modelled from the spec). -/
def setErase {α : Type} [DecidableEq α] (hf : α → Nat) (B : Nat)
    (C : HSet α) (v : α) : HSet α :=
  if setMember hf B C v then ⟨removeNode hf B v 0 C.root, C.size - 1⟩
  else C

/-- Modelled from the spec: container equality holds iff the two
containers contain the same elements, independent of trie shape (checked
as mutual containment of the stored values). -/
def setEquals {α : Type} [DecidableEq α] (hf : α → Nat) (B : Nat)
    (A C : HSet α) : Bool :=
  (allValues A.root).all (fun x => memberNode hf B x 0 C.root) &&
  (allValues C.root).all (fun x => memberNode hf B x 0 A.root)

/-- Translated from src: operator!= returns the negation of operator==. -/
def setNeq {α : Type} [DecidableEq α] (hf : α → Nat) (B : Nat)
    (A C : HSet α) : Bool :=
  !(setEquals hf B A C)

/-- Well-formedness of a container: its root is well-formed at level 0. -/
def WFset {α : Type} (hf : α → Nat) (B : Nat) (C : HSet α) : Prop :=
  WFe hf B C.root 0

/-! ### Equation helpers for the trie operations -/

section TrieLemmas

variable {α : Type} [DecidableEq α]

theorem memberNode_collision (hf : α → Nat) (B : Nat) (x : α) (l : Nat) (vs : List α) :
    memberNode hf B x l (.collision vs) = decide (x ∈ vs) := by
  simp [memberNode]

theorem memberNode_branch_none (hf : α → Nat) (B : Nat) (x : α) (l : Nat)
    {slots : List (Nat × SlotEntry α)}
    (hg : getSlot (chunk hf B x l) slots = none) :
    memberNode hf B x l (.branch slots) = false := by
  rw [memberNode, hg]

theorem memberNode_branch_value (hf : α → Nat) (B : Nat) (x : α) (l : Nat)
    {slots : List (Nat × SlotEntry α)} {w : α}
    (hg : getSlot (chunk hf B x l) slots = some (.value w)) :
    memberNode hf B x l (.branch slots) = decide (x = w) := by
  rw [memberNode, hg]

theorem memberNode_branch_child (hf : α → Nat) (B : Nat) (x : α) (l : Nat)
    {slots : List (Nat × SlotEntry α)} {c : Node α}
    (hg : getSlot (chunk hf B x l) slots = some (.child c)) :
    memberNode hf B x l (.branch slots) = memberNode hf B x (l + 1) c := by
  rw [memberNode, hg]

theorem insertNode_collision (hf : α → Nat) (B maxD : Nat) (v : α) (l : Nat) (vs : List α) :
    insertNode hf B maxD v l (.collision vs) =
      if v ∈ vs then .collision vs else .collision (v :: vs) := by
  simp [insertNode]

theorem insertNode_branch_none (hf : α → Nat) (B maxD : Nat) (v : α) (l : Nat)
    {slots : List (Nat × SlotEntry α)}
    (hg : getSlot (chunk hf B v l) slots = none) :
    insertNode hf B maxD v l (.branch slots) =
      .branch ((chunk hf B v l, .value v) :: slots) := by
  rw [insertNode, hg]

theorem insertNode_branch_value (hf : α → Nat) (B maxD : Nat) (v : α) (l : Nat)
    {slots : List (Nat × SlotEntry α)} {w : α}
    (hg : getSlot (chunk hf B v l) slots = some (.value w)) :
    insertNode hf B maxD v l (.branch slots) =
      if v = w then .branch slots
      else .branch (setSlot (chunk hf B v l)
        (.child (mergeVals hf B w v (maxD - (l + 1)) (l + 1))) slots) := by
  rw [insertNode, hg]

theorem insertNode_branch_child (hf : α → Nat) (B maxD : Nat) (v : α) (l : Nat)
    {slots : List (Nat × SlotEntry α)} {c : Node α}
    (hg : getSlot (chunk hf B v l) slots = some (.child c)) :
    insertNode hf B maxD v l (.branch slots) =
      .branch (setSlot (chunk hf B v l)
        (.child (insertNode hf B maxD v (l + 1) c)) slots) := by
  rw [insertNode, hg]

theorem removeNode_collision (hf : α → Nat) (B : Nat) (v : α) (l : Nat) (vs : List α) :
    removeNode hf B v l (.collision vs) =
      .collision (vs.filter (fun w => !decide (w = v))) := by
  simp [removeNode]

theorem removeNode_branch_none (hf : α → Nat) (B : Nat) (v : α) (l : Nat)
    {slots : List (Nat × SlotEntry α)}
    (hg : getSlot (chunk hf B v l) slots = none) :
    removeNode hf B v l (.branch slots) = .branch slots := by
  rw [removeNode, hg]

theorem removeNode_branch_value (hf : α → Nat) (B : Nat) (v : α) (l : Nat)
    {slots : List (Nat × SlotEntry α)} {w : α}
    (hg : getSlot (chunk hf B v l) slots = some (.value w)) :
    removeNode hf B v l (.branch slots) =
      if w = v then .branch (delSlot (chunk hf B v l) slots)
      else .branch slots := by
  rw [removeNode, hg]

theorem removeNode_branch_child (hf : α → Nat) (B : Nat) (v : α) (l : Nat)
    {slots : List (Nat × SlotEntry α)} {c : Node α}
    (hg : getSlot (chunk hf B v l) slots = some (.child c)) :
    removeNode hf B v l (.branch slots) =
      .branch (setSlot (chunk hf B v l)
        (.child (removeNode hf B v (l + 1) c)) slots) := by
  rw [removeNode, hg]

end TrieLemmas

/-! ### Association-list lemmas for branch slots -/

section SlotLemmas

variable {α : Type}

theorem getSlot_eq_none {idx : Nat} :
    ∀ {s : List (Nat × SlotEntry α)}, getSlot idx s = none ↔ idx ∉ s.map Prod.fst := by
  intro s
  induction s with
  | nil => simp [getSlot]
  | cons p rest ih =>
    cases p with
    | mk i e =>
      by_cases hi : i = idx
      · subst hi
        simp [getSlot]
      · simp [getSlot, hi, ih, Ne.symm hi]

theorem getSlot_mem {idx : Nat} {e : SlotEntry α} :
    ∀ {s : List (Nat × SlotEntry α)}, getSlot idx s = some e → (idx, e) ∈ s := by
  intro s
  induction s with
  | nil => intro h; simp [getSlot] at h
  | cons p rest ih =>
    intro h
    cases p with
    | mk i e0 =>
      simp only [getSlot] at h
      by_cases hi : i = idx
      · rw [if_pos hi] at h
        cases h
        subst hi
        simp
      · rw [if_neg hi] at h
        simp [ih h]

theorem getSlot_setSlot_self {idx : Nat} (e : SlotEntry α) :
    ∀ {s : List (Nat × SlotEntry α)} {e0 : SlotEntry α},
      getSlot idx s = some e0 → getSlot idx (setSlot idx e s) = some e := by
  intro s
  induction s with
  | nil => intro e0 h; simp [getSlot] at h
  | cons p rest ih =>
    intro e0 h
    cases p with
    | mk i e1 =>
      by_cases hi : i = idx
      · simp [setSlot, hi, getSlot]
      · simp only [getSlot, if_neg hi] at h
        simp only [setSlot, if_neg hi, getSlot, if_neg hi]
        exact ih h

theorem getSlot_setSlot_ne {idx j : Nat} (e : SlotEntry α) (hne : j ≠ idx) :
    ∀ {s : List (Nat × SlotEntry α)}, getSlot j (setSlot idx e s) = getSlot j s := by
  intro s
  induction s with
  | nil => simp [setSlot]
  | cons p rest ih =>
    cases p with
    | mk i e0 =>
      by_cases hi : i = idx <;> by_cases hj : i = j
      · exact absurd (hj.symm.trans hi) hne
      all_goals simp [setSlot, getSlot, hi, hj, ih, hne, Ne.symm hne]

theorem getSlot_delSlot_self {idx : Nat} :
    ∀ {s : List (Nat × SlotEntry α)}, (s.map Prod.fst).Nodup →
      getSlot idx (delSlot idx s) = none := by
  intro s
  induction s with
  | nil => intro _; simp [delSlot, getSlot]
  | cons p rest ih =>
    intro hnd
    cases p with
    | mk i e =>
      simp only [List.map_cons, List.nodup_cons] at hnd
      by_cases hi : i = idx
      · subst hi
        simp only [delSlot, if_pos rfl]
        rw [getSlot_eq_none]
        exact hnd.1
      · simp only [delSlot, if_neg hi, getSlot, if_neg hi]
        exact ih hnd.2

theorem getSlot_delSlot_ne {idx j : Nat} (hne : j ≠ idx) :
    ∀ {s : List (Nat × SlotEntry α)}, getSlot j (delSlot idx s) = getSlot j s := by
  intro s
  induction s with
  | nil => simp [delSlot]
  | cons p rest ih =>
    cases p with
    | mk i e0 =>
      by_cases hi : i = idx <;> by_cases hj : i = j
      · exact absurd (hj.symm.trans hi) hne
      all_goals simp [delSlot, getSlot, hi, hj, ih, hne, Ne.symm hne]

theorem setSlot_subset {idx : Nat} {e : SlotEntry α} {p : Nat × SlotEntry α} :
    ∀ {s : List (Nat × SlotEntry α)}, p ∈ setSlot idx e s →
      p = (idx, e) ∨ p ∈ s := by
  intro s
  induction s with
  | nil => intro h; simp [setSlot] at h
  | cons q rest ih =>
    intro h
    cases q with
    | mk i e0 =>
      by_cases hi : i = idx
      · subst hi
        simp only [setSlot, if_true, eq_self_iff_true, List.mem_cons] at h
        rcases h with h1 | h1
        · exact Or.inl h1
        · exact Or.inr (List.mem_cons_of_mem _ h1)
      · simp only [setSlot, if_neg hi, List.mem_cons] at h
        rcases h with h1 | h1
        · exact Or.inr (by simp [h1])
        · rcases ih h1 with h2 | h2
          · exact Or.inl h2
          · exact Or.inr (List.mem_cons_of_mem _ h2)

theorem keys_setSlot (idx : Nat) (e : SlotEntry α) :
    ∀ (s : List (Nat × SlotEntry α)),
      (setSlot idx e s).map Prod.fst = s.map Prod.fst := by
  intro s
  induction s with
  | nil => rfl
  | cons q rest ih =>
    cases q with
    | mk i e0 =>
      by_cases hi : i = idx
      · simp [setSlot, hi]
      · simp [setSlot, hi, ih]

theorem delSlot_sublist (idx : Nat) :
    ∀ (s : List (Nat × SlotEntry α)), (delSlot idx s).Sublist s := by
  intro s
  induction s with
  | nil => simp [delSlot]
  | cons q rest ih =>
    cases q with
    | mk i e0 =>
      by_cases hi : i = idx
      · simp only [delSlot, if_pos hi]
        exact List.sublist_cons_self _ _
      · simp only [delSlot, if_neg hi]
        exact ih.cons₂ (i, e0)

theorem getSlot_of_mem_nodup {i : Nat} {e : SlotEntry α} :
    ∀ {s : List (Nat × SlotEntry α)}, (s.map Prod.fst).Nodup →
      (i, e) ∈ s → getSlot i s = some e := by
  intro s
  induction s with
  | nil => intro _ h; simp at h
  | cons q rest ih =>
    intro hnd h
    cases q with
    | mk j e0 =>
      simp only [List.map_cons, List.nodup_cons] at hnd
      rcases List.mem_cons.mp h with h | h
      · cases h
        simp [getSlot]
      · have hj : j ≠ i := by
          intro hji
          subst hji
          exact hnd.1 (by simpa using List.mem_map_of_mem Prod.fst h)
        simp only [getSlot, if_neg hj]
        exact ih hnd.2 h

end SlotLemmas

/-! ### Stored values and structural induction -/

section ValueLemmas

variable {α : Type}

theorem allValues_collision (vs : List α) :
    allValues (Node.collision vs) = vs := by
  simp [allValues]

theorem allValues_branch (slots : List (Nat × SlotEntry α)) :
    allValues (Node.branch slots) = slotsValues slots := by
  simp [allValues]

theorem slotsValues_nil : slotsValues ([] : List (Nat × SlotEntry α)) = [] := by
  simp [slotsValues]

theorem slotsValues_cons_value (i : Nat) (w : α) (rest : List (Nat × SlotEntry α)) :
    slotsValues ((i, SlotEntry.value w) :: rest) = w :: slotsValues rest := by
  simp [slotsValues]

theorem slotsValues_cons_child (i : Nat) (c : Node α) (rest : List (Nat × SlotEntry α)) :
    slotsValues ((i, SlotEntry.child c) :: rest) = allValues c ++ slotsValues rest := by
  simp [slotsValues]

theorem mem_slotsValues {x : α} :
    ∀ {s : List (Nat × SlotEntry α)}, x ∈ slotsValues s ↔
      ((∃ i, (i, SlotEntry.value x) ∈ s) ∨
       (∃ i c, (i, SlotEntry.child c) ∈ s ∧ x ∈ allValues c)) := by
  intro s
  induction s with
  | nil => simp [slotsValues_nil]
  | cons p rest ih =>
    obtain ⟨i, e⟩ := p
    cases e with
    | value w =>
      simp only [slotsValues_cons_value, List.mem_cons, ih]
      constructor
      · rintro (rfl | h | h)
        · exact Or.inl ⟨i, Or.inl rfl⟩
        · obtain ⟨j, hj⟩ := h
          exact Or.inl ⟨j, Or.inr hj⟩
        · obtain ⟨j, c, hj, hx⟩ := h
          exact Or.inr ⟨j, c, Or.inr hj, hx⟩
      · rintro (⟨j, hj | hj⟩ | ⟨j, c, hj | hj, hx⟩)
        · cases hj
          exact Or.inl rfl
        · exact Or.inr (Or.inl ⟨j, hj⟩)
        · cases hj
        · exact Or.inr (Or.inr ⟨j, c, hj, hx⟩)
    | child c0 =>
      simp only [slotsValues_cons_child, List.mem_append, List.mem_cons, ih]
      constructor
      · rintro (h | h | h)
        · exact Or.inr ⟨i, c0, Or.inl rfl, h⟩
        · obtain ⟨j, hj⟩ := h
          exact Or.inl ⟨j, Or.inr hj⟩
        · obtain ⟨j, c, hj, hx⟩ := h
          exact Or.inr ⟨j, c, Or.inr hj, hx⟩
      · rintro (⟨j, hj | hj⟩ | ⟨j, c, hj | hj, hx⟩)
        · cases hj
        · exact Or.inr (Or.inl ⟨j, hj⟩)
        · cases hj
          exact Or.inl hx
        · exact Or.inr (Or.inr ⟨j, c, hj, hx⟩)

theorem node_strong_ind {motive : Node α → Prop}
    (h : ∀ n, (∀ m : Node α, sizeOf m < sizeOf n → motive m) → motive n) :
    ∀ n, motive n := by
  have haux : ∀ k, ∀ m : Node α, sizeOf m < k → motive m := by
    intro k
    induction k with
    | zero => intro m hm; omega
    | succ k ih =>
      intro m hm
      exact h m fun m2 hm2 => ih m2 (by omega)
  intro n
  exact h n fun m hm => haux (sizeOf n) m hm

theorem sizeOf_child_lt {i : Nat} {c : Node α}
    {slots : List (Nat × SlotEntry α)} (h : (i, SlotEntry.child c) ∈ slots) :
    sizeOf c < sizeOf (Node.branch slots) := by
  have := List.sizeOf_lt_of_mem h
  simp at this ⊢
  omega

end ValueLemmas

/-! ### Membership characterization of the trie operations -/

section MemberLemmas

variable {α : Type} [DecidableEq α]

theorem memberNode_branch_congr (hf : α → Nat) (B : Nat) (x : α) (l : Nat)
    {s1 s2 : List (Nat × SlotEntry α)}
    (h : getSlot (chunk hf B x l) s1 = getSlot (chunk hf B x l) s2) :
    memberNode hf B x l (.branch s1) = memberNode hf B x l (.branch s2) := by
  cases hres : getSlot (chunk hf B x l) s2 with
  | none =>
    rw [memberNode_branch_none hf B x l (h.trans hres),
      memberNode_branch_none hf B x l hres]
  | some e =>
    cases e with
    | value w =>
      rw [memberNode_branch_value hf B x l (h.trans hres),
        memberNode_branch_value hf B x l hres]
    | child c =>
      rw [memberNode_branch_child hf B x l (h.trans hres),
        memberNode_branch_child hf B x l hres]

theorem member_mergeVals (hf : α → Nat) (B : Nat) (w v x : α) :
    ∀ (fuel l : Nat),
      memberNode hf B x l (mergeVals hf B w v fuel l) =
        (decide (x = w) || decide (x = v)) := by
  intro fuel
  induction fuel with
  | zero =>
    intro l
    rw [show mergeVals hf B w v 0 l = Node.collision [w, v] from rfl,
      memberNode_collision]
    simp [List.mem_cons]
  | succ fuel ih =>
    intro l
    by_cases hc : chunk hf B w l = chunk hf B v l
    · rw [show mergeVals hf B w v (fuel + 1) l =
          Node.branch [(chunk hf B w l,
            SlotEntry.child (mergeVals hf B w v fuel (l + 1)))] from by
        simp [mergeVals, hc]]
      by_cases hx : chunk hf B x l = chunk hf B w l
      · have hgx : getSlot (chunk hf B x l)
            [(chunk hf B w l, SlotEntry.child (mergeVals hf B w v fuel (l + 1)))] =
            some (SlotEntry.child (mergeVals hf B w v fuel (l + 1))) := by
          simp [getSlot, hx.symm]
        rw [memberNode_branch_child hf B x l hgx]
        exact ih (l + 1)
      · have hwx : chunk hf B w l ≠ chunk hf B x l := fun h => hx h.symm
        have hgx : getSlot (chunk hf B x l)
            [(chunk hf B w l, SlotEntry.child (mergeVals hf B w v fuel (l + 1)))] =
            none := by
          simp [getSlot, hwx]
        rw [memberNode_branch_none hf B x l hgx]
        have hxw : x ≠ w := fun he => hx (he ▸ rfl)
        have hxv : x ≠ v := fun he => hx (by rw [he, ← hc])
        simp [hxw, hxv]
    · rw [show mergeVals hf B w v (fuel + 1) l =
          Node.branch [(chunk hf B w l, SlotEntry.value w),
            (chunk hf B v l, SlotEntry.value v)] from by
        simp [mergeVals, hc]]
      by_cases hxw : chunk hf B x l = chunk hf B w l
      · have hgx : getSlot (chunk hf B x l)
            [(chunk hf B w l, SlotEntry.value w),
              (chunk hf B v l, SlotEntry.value v)] =
            some (SlotEntry.value w) := by
          simp [getSlot, hxw.symm]
        rw [memberNode_branch_value hf B x l hgx]
        have hxv : x ≠ v := fun he => hc (hxw.symm.trans (he ▸ rfl))
        simp [hxv]
      · by_cases hxv : chunk hf B x l = chunk hf B v l
        · have hwx : chunk hf B w l ≠ chunk hf B x l := fun h => hxw h.symm
          have hgx : getSlot (chunk hf B x l)
              [(chunk hf B w l, SlotEntry.value w),
                (chunk hf B v l, SlotEntry.value v)] =
              some (SlotEntry.value v) := by
            simp [getSlot, hwx, hxv.symm]
          rw [memberNode_branch_value hf B x l hgx]
          have hxw2 : x ≠ w := fun he => hxw (he ▸ rfl)
          simp [hxw2]
        · have hwx : chunk hf B w l ≠ chunk hf B x l := fun h => hxw h.symm
          have hvx : chunk hf B v l ≠ chunk hf B x l := fun h => hxv h.symm
          have hgx : getSlot (chunk hf B x l)
              [(chunk hf B w l, SlotEntry.value w),
                (chunk hf B v l, SlotEntry.value v)] = none := by
            simp [getSlot, hwx, hvx]
          rw [memberNode_branch_none hf B x l hgx]
          have hxw2 : x ≠ w := fun he => hxw (he ▸ rfl)
          have hxv2 : x ≠ v := fun he => hxv (he ▸ rfl)
          simp [hxw2, hxv2]

theorem member_insertNode (hf : α → Nat) (B maxD : Nat) (v x : α) :
    ∀ (l : Nat) (n : Node α),
      memberNode hf B x l (insertNode hf B maxD v l n) =
        (decide (x = v) || memberNode hf B x l n) := by
  intro l n
  induction l, n using insertNode.induct hf B maxD v with
  | case1 l vs hin =>
    rw [insertNode_collision, if_pos hin]
    by_cases hxv : x = v
    · subst hxv
      simp [memberNode_collision, hin]
    · simp [memberNode_collision, hxv]
  | case2 l vs hin =>
    rw [insertNode_collision, if_neg hin]
    simp [memberNode_collision, List.mem_cons]
  | case3 l slots hg =>
    rw [insertNode_branch_none hf B maxD v l hg]
    by_cases hcx : chunk hf B x l = chunk hf B v l
    · have hgx : getSlot (chunk hf B x l)
          ((chunk hf B v l, SlotEntry.value v) :: slots) =
          some (SlotEntry.value v) := by
        simp [getSlot, hcx.symm]
      rw [memberNode_branch_value hf B x l hgx]
      have hgx2 : getSlot (chunk hf B x l) slots = none := by
        rw [hcx]; exact hg
      rw [memberNode_branch_none hf B x l hgx2]
      simp
    · have hvx : chunk hf B v l ≠ chunk hf B x l := fun h => hcx h.symm
      have hxv : x ≠ v := fun he => hcx (he ▸ rfl)
      have hgx : getSlot (chunk hf B x l)
          ((chunk hf B v l, SlotEntry.value v) :: slots) =
          getSlot (chunk hf B x l) slots := by
        simp [getSlot, hvx]
      rw [memberNode_branch_congr hf B x l hgx]
      simp [hxv]
  | case4 l slots hg =>
    rw [insertNode_branch_value hf B maxD v l hg, if_pos rfl]
    by_cases hxv : x = v
    · subst hxv
      rw [memberNode_branch_value hf B x l hg]
      simp
    · simp [hxv]
  | case5 l slots w hg hvw =>
    rw [insertNode_branch_value hf B maxD v l hg, if_neg hvw]
    by_cases hcx : chunk hf B x l = chunk hf B v l
    · have hpres : getSlot (chunk hf B x l) slots = some (SlotEntry.value w) := by
        rw [hcx]; exact hg
      have hset : getSlot (chunk hf B x l)
          (setSlot (chunk hf B v l)
            (SlotEntry.child (mergeVals hf B w v (maxD - (l + 1)) (l + 1))) slots) =
          some (SlotEntry.child (mergeVals hf B w v (maxD - (l + 1)) (l + 1))) := by
        rw [hcx]
        exact getSlot_setSlot_self _ hg
      rw [memberNode_branch_child hf B x l hset, member_mergeVals,
        memberNode_branch_value hf B x l hpres]
      exact Bool.or_comm (decide (x = w)) (decide (x = v))
    · have hxv : x ≠ v := fun he => hcx (he ▸ rfl)
      have hset : getSlot (chunk hf B x l)
          (setSlot (chunk hf B v l)
            (SlotEntry.child (mergeVals hf B w v (maxD - (l + 1)) (l + 1))) slots) =
          getSlot (chunk hf B x l) slots :=
        getSlot_setSlot_ne _ hcx
      rw [memberNode_branch_congr hf B x l hset]
      simp [hxv]
  | case6 l slots c hg ih =>
    rw [insertNode_branch_child hf B maxD v l hg]
    by_cases hcx : chunk hf B x l = chunk hf B v l
    · have hpres : getSlot (chunk hf B x l) slots = some (SlotEntry.child c) := by
        rw [hcx]; exact hg
      have hset : getSlot (chunk hf B x l)
          (setSlot (chunk hf B v l)
            (SlotEntry.child (insertNode hf B maxD v (l + 1) c)) slots) =
          some (SlotEntry.child (insertNode hf B maxD v (l + 1) c)) := by
        rw [hcx]
        exact getSlot_setSlot_self _ hg
      rw [memberNode_branch_child hf B x l hset, ih,
        memberNode_branch_child hf B x l hpres]
    · have hxv : x ≠ v := fun he => hcx (he ▸ rfl)
      have hset : getSlot (chunk hf B x l)
          (setSlot (chunk hf B v l)
            (SlotEntry.child (insertNode hf B maxD v (l + 1) c)) slots) =
          getSlot (chunk hf B x l) slots :=
        getSlot_setSlot_ne _ hcx
      rw [memberNode_branch_congr hf B x l hset]
      simp [hxv]

theorem member_removeNode (hf : α → Nat) (B : Nat) (v x : α) :
    ∀ (l : Nat) (n : Node α), WFe hf B n l →
      memberNode hf B x l (removeNode hf B v l n) =
        (!decide (x = v) && memberNode hf B x l n) := by
  intro l n
  induction l, n using removeNode.induct hf B v with
  | case1 l vs =>
    intro _
    rw [removeNode_collision, memberNode_collision, memberNode_collision]
    by_cases hxv : x = v
    · subst hxv
      simp [List.mem_filter]
    · simp [List.mem_filter, hxv]
  | case2 l slots hg =>
    intro _
    rw [removeNode_branch_none hf B v l hg]
    by_cases hxv : x = v
    · subst hxv
      rw [memberNode_branch_none hf B x l hg]
      simp
    · simp [hxv]
  | case3 l slots hg =>
    intro hwf
    rw [removeNode_branch_value hf B v l hg, if_pos rfl]
    cases hwf with
    | branch _ _ hkeys hval hchunk hchild =>
      by_cases hcx : chunk hf B x l = chunk hf B v l
      · have hdel : getSlot (chunk hf B x l) (delSlot (chunk hf B v l) slots) =
            none := by
          rw [hcx]; exact getSlot_delSlot_self hkeys
        rw [memberNode_branch_none hf B x l hdel]
        have hpres : getSlot (chunk hf B x l) slots = some (SlotEntry.value v) := by
          rw [hcx]; exact hg
        rw [memberNode_branch_value hf B x l hpres]
        simp
      · have hxv : x ≠ v := fun he => hcx (he ▸ rfl)
        have hdel : getSlot (chunk hf B x l) (delSlot (chunk hf B v l) slots) =
            getSlot (chunk hf B x l) slots := getSlot_delSlot_ne hcx
        rw [memberNode_branch_congr hf B x l hdel]
        simp [hxv]
  | case4 l slots w hg hwv =>
    intro _
    rw [removeNode_branch_value hf B v l hg, if_neg hwv]
    by_cases hxv : x = v
    · subst hxv
      rw [memberNode_branch_value hf B x l hg]
      simp [Ne.symm hwv]
    · simp [hxv]
  | case5 l slots c hg ih =>
    intro hwf
    rw [removeNode_branch_child hf B v l hg]
    cases hwf with
    | branch _ _ hkeys hval hchunk hchild =>
      have hwfc : WFe hf B c (l + 1) := hchild _ _ (getSlot_mem hg)
      by_cases hcx : chunk hf B x l = chunk hf B v l
      · have hpres : getSlot (chunk hf B x l) slots = some (SlotEntry.child c) := by
          rw [hcx]; exact hg
        have hset : getSlot (chunk hf B x l)
            (setSlot (chunk hf B v l)
              (SlotEntry.child (removeNode hf B v (l + 1) c)) slots) =
            some (SlotEntry.child (removeNode hf B v (l + 1) c)) := by
          rw [hcx]
          exact getSlot_setSlot_self _ hg
        rw [memberNode_branch_child hf B x l hset, ih hwfc,
          memberNode_branch_child hf B x l hpres]
      · have hxv : x ≠ v := fun he => hcx (he ▸ rfl)
        have hset : getSlot (chunk hf B x l)
            (setSlot (chunk hf B v l)
              (SlotEntry.child (removeNode hf B v (l + 1) c)) slots) =
            getSlot (chunk hf B x l) slots :=
          getSlot_setSlot_ne _ hcx
        rw [memberNode_branch_congr hf B x l hset]
        simp [hxv]

end MemberLemmas

/-! ### Stored values of the operations and invariant preservation -/

section InvariantLemmas

variable {α : Type}

theorem allValues_mergeVals (hf : α → Nat) (B : Nat) (w v : α) :
    ∀ (fuel l : Nat), allValues (mergeVals hf B w v fuel l) = [w, v] := by
  intro fuel
  induction fuel with
  | zero =>
    intro l
    rw [show mergeVals hf B w v 0 l = Node.collision [w, v] from rfl,
      allValues_collision]
  | succ fuel ih =>
    intro l
    by_cases hc : chunk hf B w l = chunk hf B v l
    · rw [show mergeVals hf B w v (fuel + 1) l =
          Node.branch [(chunk hf B w l,
            SlotEntry.child (mergeVals hf B w v fuel (l + 1)))] from by
        simp [mergeVals, hc]]
      rw [allValues_branch, slotsValues_cons_child, slotsValues_nil, ih]
      simp
    · rw [show mergeVals hf B w v (fuel + 1) l =
          Node.branch [(chunk hf B w l, SlotEntry.value w),
            (chunk hf B v l, SlotEntry.value v)] from by
        simp [mergeVals, hc]]
      rw [allValues_branch, slotsValues_cons_value, slotsValues_cons_value,
        slotsValues_nil]

theorem WF_mergeVals (hf : α → Nat) (B : Nat) (w v : α) :
    ∀ (fuel l : Nat), WFe hf B (mergeVals hf B w v fuel l) l := by
  intro fuel
  induction fuel with
  | zero =>
    intro l
    rw [show mergeVals hf B w v 0 l = Node.collision [w, v] from rfl]
    exact WFe.collision _ _
  | succ fuel ih =>
    intro l
    by_cases hc : chunk hf B w l = chunk hf B v l
    · rw [show mergeVals hf B w v (fuel + 1) l =
          Node.branch [(chunk hf B w l,
            SlotEntry.child (mergeVals hf B w v fuel (l + 1)))] from by
        simp [mergeVals, hc]]
      refine WFe.branch _ _ (by simp) ?_ ?_ ?_
      · intro i w0 h
        simp at h
      · intro i c0 h
        simp only [List.mem_singleton, Prod.mk.injEq] at h
        obtain ⟨rfl, h2⟩ := h
        have hc0 : c0 = mergeVals hf B w v fuel (l + 1) := by
          cases h2; rfl
        subst hc0
        intro x hx
        rw [allValues_mergeVals] at hx
        rcases List.mem_cons.mp hx with rfl | hx2
        · rfl
        · rcases List.mem_singleton.mp hx2 with rfl
          exact hc.symm
      · intro i c0 h
        simp only [List.mem_singleton, Prod.mk.injEq] at h
        obtain ⟨rfl, h2⟩ := h
        have hc0 : c0 = mergeVals hf B w v fuel (l + 1) := by
          cases h2; rfl
        subst hc0
        exact ih (l + 1)
    · rw [show mergeVals hf B w v (fuel + 1) l =
          Node.branch [(chunk hf B w l, SlotEntry.value w),
            (chunk hf B v l, SlotEntry.value v)] from by
        simp [mergeVals, hc]]
      refine WFe.branch _ _ (by simp [hc]) ?_ ?_ ?_
      · intro i w0 h
        simp only [List.mem_cons, List.mem_singleton, Prod.mk.injEq,
          List.not_mem_nil, or_false] at h
        rcases h with ⟨rfl, h2⟩ | ⟨rfl, h2⟩
        · cases h2; rfl
        · cases h2; rfl
      · intro i c0 h
        simp at h
      · intro i c0 h
        simp at h

theorem WFset_empty (hf : α → Nat) (B : Nat) : WFset hf B (emptySet : HSet α) := by
  refine WFe.branch _ _ ?_ ?_ ?_ ?_
  · simp
  · intro i w h
    simp at h
  · intro i c h
    simp at h
  · intro i c h
    simp at h

end InvariantLemmas

section PreservationLemmas

variable {α : Type} [DecidableEq α]

theorem allValues_insertNode (hf : α → Nat) (B maxD : Nat) (v : α) :
    ∀ (l : Nat) (n : Node α), ∀ x,
      x ∈ allValues (insertNode hf B maxD v l n) → x = v ∨ x ∈ allValues n := by
  intro l n
  induction l, n using insertNode.induct hf B maxD v with
  | case1 l vs hin =>
    intro x hx
    rw [insertNode_collision, if_pos hin] at hx
    exact Or.inr hx
  | case2 l vs hin =>
    intro x hx
    rw [insertNode_collision, if_neg hin, allValues_collision] at hx
    rcases List.mem_cons.mp hx with h | h
    · exact Or.inl h
    · exact Or.inr (by rw [allValues_collision]; exact h)
  | case3 l slots hg =>
    intro x hx
    rw [insertNode_branch_none hf B maxD v l hg, allValues_branch,
      slotsValues_cons_value] at hx
    rcases List.mem_cons.mp hx with h | h
    · exact Or.inl h
    · exact Or.inr (by rw [allValues_branch]; exact h)
  | case4 l slots hg =>
    intro x hx
    rw [insertNode_branch_value hf B maxD v l hg, if_pos rfl] at hx
    exact Or.inr hx
  | case5 l slots w hg hvw =>
    intro x hx
    rw [insertNode_branch_value hf B maxD v l hg, if_neg hvw, allValues_branch,
      mem_slotsValues] at hx
    rcases hx with ⟨i, hi⟩ | ⟨i, c, hic, hxc⟩
    · rcases setSlot_subset hi with h | h
      · simp at h
      · exact Or.inr (by
          rw [allValues_branch, mem_slotsValues]
          exact Or.inl ⟨i, h⟩)
    · rcases setSlot_subset hic with h | h
      · simp only [Prod.mk.injEq, SlotEntry.child.injEq] at h
        obtain ⟨h1, h2⟩ := h
        subst h2
        rw [allValues_mergeVals] at hxc
        rcases List.mem_cons.mp hxc with rfl | hxc2
        · exact Or.inr (by
            rw [allValues_branch, mem_slotsValues]
            exact Or.inl ⟨chunk hf B v l, getSlot_mem hg⟩)
        · rcases List.mem_singleton.mp hxc2 with rfl
          exact Or.inl rfl
      · exact Or.inr (by
          rw [allValues_branch, mem_slotsValues]
          exact Or.inr ⟨i, c, h, hxc⟩)
  | case6 l slots c hg ih =>
    intro x hx
    rw [insertNode_branch_child hf B maxD v l hg, allValues_branch,
      mem_slotsValues] at hx
    rcases hx with ⟨i, hi⟩ | ⟨i, c0, hic, hxc⟩
    · rcases setSlot_subset hi with h | h
      · simp at h
      · exact Or.inr (by
          rw [allValues_branch, mem_slotsValues]
          exact Or.inl ⟨i, h⟩)
    · rcases setSlot_subset hic with h | h
      · simp only [Prod.mk.injEq, SlotEntry.child.injEq] at h
        obtain ⟨h1, h2⟩ := h
        subst h2
        rcases ih x hxc with h3 | h3
        · exact Or.inl h3
        · exact Or.inr (by
            rw [allValues_branch, mem_slotsValues]
            exact Or.inr ⟨chunk hf B v l, c, getSlot_mem hg, h3⟩)
      · exact Or.inr (by
          rw [allValues_branch, mem_slotsValues]
          exact Or.inr ⟨i, c0, h, hxc⟩)

theorem allValues_removeNode (hf : α → Nat) (B : Nat) (v : α) :
    ∀ (l : Nat) (n : Node α), ∀ x,
      x ∈ allValues (removeNode hf B v l n) → x ∈ allValues n := by
  intro l n
  induction l, n using removeNode.induct hf B v with
  | case1 l vs =>
    intro x hx
    rw [removeNode_collision, allValues_collision] at hx
    rw [allValues_collision]
    exact (List.mem_filter.mp hx).1
  | case2 l slots hg =>
    intro x hx
    rwa [removeNode_branch_none hf B v l hg] at hx
  | case3 l slots hg =>
    intro x hx
    rw [removeNode_branch_value hf B v l hg, if_pos rfl, allValues_branch,
      mem_slotsValues] at hx
    rw [allValues_branch, mem_slotsValues]
    have hsub := (delSlot_sublist (chunk hf B v l) slots).subset
    rcases hx with ⟨i, hi⟩ | ⟨i, c, hic, hxc⟩
    · exact Or.inl ⟨i, hsub hi⟩
    · exact Or.inr ⟨i, c, hsub hic, hxc⟩
  | case4 l slots w hg hwv =>
    intro x hx
    rwa [removeNode_branch_value hf B v l hg, if_neg hwv] at hx
  | case5 l slots c hg ih =>
    intro x hx
    rw [removeNode_branch_child hf B v l hg, allValues_branch,
      mem_slotsValues] at hx
    rw [allValues_branch, mem_slotsValues]
    rcases hx with ⟨i, hi⟩ | ⟨i, c0, hic, hxc⟩
    · rcases setSlot_subset hi with h | h
      · simp at h
      · exact Or.inl ⟨i, h⟩
    · rcases setSlot_subset hic with h | h
      · simp only [Prod.mk.injEq, SlotEntry.child.injEq] at h
        obtain ⟨h1, h2⟩ := h
        subst h2
        exact Or.inr ⟨chunk hf B v l, c, getSlot_mem hg, ih x hxc⟩
      · exact Or.inr ⟨i, c0, h, hxc⟩

theorem WF_insertNode (hf : α → Nat) (B maxD : Nat) (v : α) :
    ∀ (l : Nat) (n : Node α), WFe hf B n l →
      WFe hf B (insertNode hf B maxD v l n) l := by
  intro l n
  induction l, n using insertNode.induct hf B maxD v with
  | case1 l vs hin =>
    intro _
    rw [insertNode_collision, if_pos hin]
    exact WFe.collision _ _
  | case2 l vs hin =>
    intro _
    rw [insertNode_collision, if_neg hin]
    exact WFe.collision _ _
  | case3 l slots hg =>
    intro hwf
    rw [insertNode_branch_none hf B maxD v l hg]
    cases hwf with
    | branch _ _ hkeys hval hchunk hchild =>
      refine WFe.branch _ _ ?_ ?_ ?_ ?_
      · simp only [List.map_cons, List.nodup_cons]
        exact ⟨getSlot_eq_none.mp hg, hkeys⟩
      · intro i w0 h
        rcases List.mem_cons.mp h with h1 | h1
        · simp only [Prod.mk.injEq, SlotEntry.value.injEq] at h1
          obtain ⟨rfl, rfl⟩ := h1
          rfl
        · exact hval i w0 h1
      · intro i c0 h
        rcases List.mem_cons.mp h with h1 | h1
        · simp at h1
        · exact hchunk i c0 h1
      · intro i c0 h
        rcases List.mem_cons.mp h with h1 | h1
        · simp at h1
        · exact hchild i c0 h1
  | case4 l slots hg =>
    intro hwf
    rwa [insertNode_branch_value hf B maxD v l hg, if_pos rfl]
  | case5 l slots w hg hvw =>
    intro hwf
    rw [insertNode_branch_value hf B maxD v l hg, if_neg hvw]
    cases hwf with
    | branch _ _ hkeys hval hchunk hchild =>
      have hwchunk : chunk hf B w l = chunk hf B v l :=
        hval (chunk hf B v l) w (getSlot_mem hg)
      refine WFe.branch _ _ ?_ ?_ ?_ ?_
      · rw [keys_setSlot]
        exact hkeys
      · intro i w0 h
        rcases setSlot_subset h with h1 | h1
        · simp at h1
        · exact hval i w0 h1
      · intro i c0 h
        rcases setSlot_subset h with h1 | h1
        · simp only [Prod.mk.injEq, SlotEntry.child.injEq] at h1
          obtain ⟨rfl, h2⟩ := h1
          subst h2
          intro x hx
          rw [allValues_mergeVals] at hx
          rcases List.mem_cons.mp hx with rfl | hx2
          · exact hwchunk
          · rcases List.mem_singleton.mp hx2 with rfl
            rfl
        · exact hchunk i c0 h1
      · intro i c0 h
        rcases setSlot_subset h with h1 | h1
        · simp only [Prod.mk.injEq, SlotEntry.child.injEq] at h1
          obtain ⟨rfl, h2⟩ := h1
          subst h2
          exact WF_mergeVals hf B w v _ _
        · exact hchild i c0 h1
  | case6 l slots c hg ih =>
    intro hwf
    rw [insertNode_branch_child hf B maxD v l hg]
    cases hwf with
    | branch _ _ hkeys hval hchunk hchild =>
      refine WFe.branch _ _ ?_ ?_ ?_ ?_
      · rw [keys_setSlot]
        exact hkeys
      · intro i w0 h
        rcases setSlot_subset h with h1 | h1
        · simp at h1
        · exact hval i w0 h1
      · intro i c0 h
        rcases setSlot_subset h with h1 | h1
        · simp only [Prod.mk.injEq, SlotEntry.child.injEq] at h1
          obtain ⟨rfl, h2⟩ := h1
          subst h2
          intro x hx
          rcases allValues_insertNode hf B maxD v (l + 1) c x hx with rfl | hx2
          · rfl
          · exact hchunk (chunk hf B v l) c (getSlot_mem hg) x hx2
        · exact hchunk i c0 h1
      · intro i c0 h
        rcases setSlot_subset h with h1 | h1
        · simp only [Prod.mk.injEq, SlotEntry.child.injEq] at h1
          obtain ⟨rfl, h2⟩ := h1
          subst h2
          exact ih (hchild (chunk hf B v l) c (getSlot_mem hg))
        · exact hchild i c0 h1

theorem WF_removeNode (hf : α → Nat) (B : Nat) (v : α) :
    ∀ (l : Nat) (n : Node α), WFe hf B n l →
      WFe hf B (removeNode hf B v l n) l := by
  intro l n
  induction l, n using removeNode.induct hf B v with
  | case1 l vs =>
    intro _
    rw [removeNode_collision]
    exact WFe.collision _ _
  | case2 l slots hg =>
    intro hwf
    rwa [removeNode_branch_none hf B v l hg]
  | case3 l slots hg =>
    intro hwf
    rw [removeNode_branch_value hf B v l hg, if_pos rfl]
    cases hwf with
    | branch _ _ hkeys hval hchunk hchild =>
      have hsub := (delSlot_sublist (chunk hf B v l) slots).subset
      refine WFe.branch _ _ ?_ ?_ ?_ ?_
      · exact hkeys.sublist ((delSlot_sublist (chunk hf B v l) slots).map Prod.fst)
      · intro i w0 h
        exact hval i w0 (hsub h)
      · intro i c0 h
        exact hchunk i c0 (hsub h)
      · intro i c0 h
        exact hchild i c0 (hsub h)
  | case4 l slots w hg hwv =>
    intro hwf
    rwa [removeNode_branch_value hf B v l hg, if_neg hwv]
  | case5 l slots c hg ih =>
    intro hwf
    rw [removeNode_branch_child hf B v l hg]
    cases hwf with
    | branch _ _ hkeys hval hchunk hchild =>
      refine WFe.branch _ _ ?_ ?_ ?_ ?_
      · rw [keys_setSlot]
        exact hkeys
      · intro i w0 h
        rcases setSlot_subset h with h1 | h1
        · simp at h1
        · exact hval i w0 h1
      · intro i c0 h
        rcases setSlot_subset h with h1 | h1
        · simp only [Prod.mk.injEq, SlotEntry.child.injEq] at h1
          obtain ⟨rfl, h2⟩ := h1
          subst h2
          intro x hx
          exact hchunk (chunk hf B v l) c (getSlot_mem hg) x
            (allValues_removeNode hf B v (l + 1) c x hx)
        · exact hchunk i c0 h1
      · intro i c0 h
        rcases setSlot_subset h with h1 | h1
        · simp only [Prod.mk.injEq, SlotEntry.child.injEq] at h1
          obtain ⟨rfl, h2⟩ := h1
          subst h2
          exact ih (hchild (chunk hf B v l) c (getSlot_mem hg))
        · exact hchild i c0 h1

theorem member_iff_mem_allValues (hf : α → Nat) (B : Nat) (x : α) :
    ∀ (n : Node α) (l : Nat), WFe hf B n l →
      (memberNode hf B x l n = true ↔ x ∈ allValues n) := by
  intro n
  induction n using node_strong_ind with
  | _ n ihn =>
    intro l hwf
    cases n with
    | collision vs =>
      rw [memberNode_collision, allValues_collision]
      simp
    | branch slots =>
      cases hwf with
      | branch _ _ hkeys hval hchunk hchild =>
        rw [allValues_branch]
        constructor
        · intro hm
          cases hres : getSlot (chunk hf B x l) slots with
          | none =>
            rw [memberNode_branch_none hf B x l hres] at hm
            exact absurd hm (by simp)
          | some e =>
            cases e with
            | value w =>
              rw [memberNode_branch_value hf B x l hres] at hm
              have hxw : x = w := by simpa using hm
              subst hxw
              rw [mem_slotsValues]
              exact Or.inl ⟨_, getSlot_mem hres⟩
            | child c =>
              rw [memberNode_branch_child hf B x l hres] at hm
              have hmemres := getSlot_mem hres
              have hwfc := hchild _ _ hmemres
              have hxc := (ihn c (sizeOf_child_lt hmemres) (l + 1) hwfc).mp hm
              rw [mem_slotsValues]
              exact Or.inr ⟨_, c, hmemres, hxc⟩
        · intro hx
          rw [mem_slotsValues] at hx
          rcases hx with ⟨i, hi⟩ | ⟨i, c, hic, hxc⟩
          · have hix : chunk hf B x l = i := hval i x hi
            have hget : getSlot i slots = some (SlotEntry.value x) :=
              getSlot_of_mem_nodup hkeys hi
            rw [memberNode_branch_value hf B x l (by rw [hix]; exact hget)]
            simp
          · have hix : chunk hf B x l = i := hchunk i c hic x hxc
            have hget : getSlot i slots = some (SlotEntry.child c) :=
              getSlot_of_mem_nodup hkeys hic
            rw [memberNode_branch_child hf B x l (by rw [hix]; exact hget)]
            exact (ihn c (sizeOf_child_lt hic) (l + 1) (hchild i c hic)).mpr hxc

end PreservationLemmas

/-! ### Set facade lemmas -/

section SetLemmas

variable {α : Type} [DecidableEq α]

theorem WFset_insert (hf : α → Nat) (B maxD : Nat) (C : HSet α) (v : α)
    (hwf : WFset hf B C) : WFset hf B (setInsert hf B maxD C v) := by
  unfold setInsert
  by_cases hm : setMember hf B C v
  · rwa [if_pos hm]
  · rw [if_neg hm]
    exact WF_insertNode hf B maxD v 0 C.root hwf

theorem WFset_erase (hf : α → Nat) (B : Nat) (C : HSet α) (v : α)
    (hwf : WFset hf B C) : WFset hf B (setErase hf B C v) := by
  unfold setErase
  by_cases hm : setMember hf B C v
  · rw [if_pos hm]
    exact WF_removeNode hf B v 0 C.root hwf
  · rwa [if_neg hm]

theorem setMember_insert (hf : α → Nat) (B maxD : Nat) (C : HSet α) (v x : α) :
    setMember hf B (setInsert hf B maxD C v) x =
      (decide (x = v) || setMember hf B C x) := by
  unfold setInsert
  by_cases hm : setMember hf B C v
  · rw [if_pos hm]
    by_cases hxv : x = v
    · subst hxv
      simp [hm]
    · simp [hxv]
  · rw [if_neg hm]
    unfold setMember
    exact member_insertNode hf B maxD v x 0 C.root

theorem setMember_erase (hf : α → Nat) (B : Nat) (C : HSet α) (v x : α)
    (hwf : WFset hf B C) :
    setMember hf B (setErase hf B C v) x =
      (!decide (x = v) && setMember hf B C x) := by
  unfold setErase
  by_cases hm : setMember hf B C v
  · rw [if_pos hm]
    unfold setMember
    exact member_removeNode hf B v x 0 C.root hwf
  · rw [if_neg hm]
    by_cases hxv : x = v
    · subst hxv
      simp only [Bool.not_eq_true] at hm
      simp [hm]
    · simp [hxv]

theorem setEquals_iff_member_ext (hf : α → Nat) (B : Nat) {A C : HSet α}
    (hA : WFset hf B A) (hC : WFset hf B C) :
    (setEquals hf B A C = true ↔
      ∀ x, setMember hf B A x = setMember hf B C x) := by
  unfold setEquals setMember
  rw [Bool.and_eq_true, List.all_eq_true, List.all_eq_true]
  constructor
  · intro h x
    cases hm : memberNode hf B x 0 A.root with
    | true =>
      rw [h.1 x ((member_iff_mem_allValues hf B x A.root 0 hA).mp hm)]
    | false =>
      cases hm2 : memberNode hf B x 0 C.root with
      | false => rfl
      | true =>
        have := h.2 x ((member_iff_mem_allValues hf B x C.root 0 hC).mp hm2)
        rw [hm] at this
        exact absurd this (by simp)
  · intro h
    constructor
    · intro x hx
      rw [← h x]
      exact (member_iff_mem_allValues hf B x A.root 0 hA).mpr hx
    · intro x hx
      rw [h x]
      exact (member_iff_mem_allValues hf B x C.root 0 hC).mpr hx

end SetLemmas

/-! ### Claims C5 to C8 -/

section SetClaims

variable {α : Type} [DecidableEq α]

/-- C5: for every well-formed container C and value v: if v is not in C
then erase(insert(C, v), v) == C, and if v is already in C then
insert(C, v) == C — container equality, holding whatever trie shapes the
operations produce. -/
theorem insert_erase_persistence (hf : α → Nat) (B maxD : Nat) (C : HSet α) (v : α)
    (hwf : WFset hf B C) :
    (setCount hf B C v = 0 →
      setEquals hf B (setErase hf B (setInsert hf B maxD C v) v) C = true) ∧
    (setCount hf B C v = 1 →
      setEquals hf B (setInsert hf B maxD C v) C = true) := by
  constructor
  · intro h0
    have hmv : setMember hf B C v = false := by
      unfold setCount at h0
      cases hm : setMember hf B C v with
      | false => rfl
      | true =>
        rw [hm] at h0
        simp at h0
    have hwfI := WFset_insert hf B maxD C v hwf
    have hwfE := WFset_erase hf B (setInsert hf B maxD C v) v hwfI
    rw [setEquals_iff_member_ext hf B hwfE hwf]
    intro x
    rw [setMember_erase hf B (setInsert hf B maxD C v) v x hwfI,
      setMember_insert hf B maxD C v x]
    by_cases hxv : x = v
    · subst hxv
      simp [hmv]
    · simp [hxv]
  · intro h1
    have hmv : setMember hf B C v = true := by
      unfold setCount at h1
      cases hm : setMember hf B C v with
      | false =>
        rw [hm] at h1
        simp at h1
      | true => rfl
    have heq : setInsert hf B maxD C v = C := by
      unfold setInsert
      rw [if_pos hmv]
    rw [heq, setEquals_iff_member_ext hf B hwf hwf]
    intro x
    rfl

/-- Witness for C5 on the empty container (0 is absent, so the erase of a
fresh insert gives back an equal container). -/
theorem insert_erase_persistence_witness :
    (setCount (fun n => n) 1 (emptySet : HSet Nat) 0 = 0) ∧
    setEquals (fun n => n) 1
      (setErase (fun n => n) 1
        (setInsert (fun n => n) 1 2 (emptySet : HSet Nat) 0) 0)
      emptySet = true :=
  ⟨by simp [setCount, setMember, memberNode, getSlot, emptySet],
    (insert_erase_persistence (fun n => n) 1 2 emptySet 0 (WFset_empty _ _)).1
      (by simp [setCount, setMember, memberNode, getSlot, emptySet])⟩

/-- C6: no mutator mutates its receiver; in this embedding containers are
immutable values, so the receiver C is untouched by construction, and the
theorem states the accompanying frame property: the container returned by
insert or erase agrees with the receiver on the count of every value other
than v. -/
theorem mutators_frame (hf : α → Nat) (B maxD : Nat) (C : HSet α) (v : α)
    (hwf : WFset hf B C) :
    (∀ x, x ≠ v → setCount hf B (setInsert hf B maxD C v) x = setCount hf B C x) ∧
    (∀ x, x ≠ v → setCount hf B (setErase hf B C v) x = setCount hf B C x) := by
  constructor
  · intro x hxv
    unfold setCount
    rw [setMember_insert hf B maxD C v x]
    simp [hxv]
  · intro x hxv
    unfold setCount
    rw [setMember_erase hf B C v x hwf]
    simp [hxv]

/-- Witness for C6 on the empty container and a distinct probe value. -/
theorem mutators_frame_witness :
    setCount (fun n => n) 1 (setInsert (fun n => n) 1 2 (emptySet : HSet Nat) 0) 1 =
      setCount (fun n => n) 1 (emptySet : HSet Nat) 1 :=
  (mutators_frame (fun n => n) 1 2 emptySet 0 (WFset_empty _ _)).1 1 (by decide)

/-- C7: operator== returns true iff the two containers contain exactly the
same elements (equal membership at every value), independent of the trie
shapes produced by their possibly different histories, and operator!=
returns the negation of operator==. -/
theorem equals_iff_same_elements (hf : α → Nat) (B : Nat) (A C : HSet α)
    (hA : WFset hf B A) (hC : WFset hf B C) :
    (setEquals hf B A C = true ↔
      ∀ x, setMember hf B A x = setMember hf B C x) ∧
    setNeq hf B A C = !setEquals hf B A C :=
  ⟨setEquals_iff_member_ext hf B hA hC, rfl⟩

/-- Witness for C7 on two containers built by different histories: one by
a single insert, the other by two inserts followed by an erase. -/
theorem equals_iff_same_elements_witness :
    (setEquals (fun n => n) 1 (setInsert (fun n => n) 1 2 (emptySet : HSet Nat) 1)
        (setErase (fun n => n) 1
          (setInsert (fun n => n) 1 2
            (setInsert (fun n => n) 1 2 (emptySet : HSet Nat) 1) 2) 2) = true ↔
      ∀ x, setMember (fun n => n) 1 (setInsert (fun n => n) 1 2 (emptySet : HSet Nat) 1) x =
        setMember (fun n => n) 1
          (setErase (fun n => n) 1
            (setInsert (fun n => n) 1 2
              (setInsert (fun n => n) 1 2 (emptySet : HSet Nat) 1) 2) 2) x) ∧
    setNeq (fun n => n) 1 (setInsert (fun n => n) 1 2 (emptySet : HSet Nat) 1)
        (setErase (fun n => n) 1
          (setInsert (fun n => n) 1 2
            (setInsert (fun n => n) 1 2 (emptySet : HSet Nat) 1) 2) 2) =
      !setEquals (fun n => n) 1 (setInsert (fun n => n) 1 2 (emptySet : HSet Nat) 1)
        (setErase (fun n => n) 1
          (setInsert (fun n => n) 1 2
            (setInsert (fun n => n) 1 2 (emptySet : HSet Nat) 1) 2) 2) :=
  equals_iff_same_elements (fun n => n) 1
    (setInsert (fun n => n) 1 2 emptySet 1)
    (setErase (fun n => n) 1
      (setInsert (fun n => n) 1 2
        (setInsert (fun n => n) 1 2 emptySet 1) 2) 2)
    (WFset_insert (fun n => n) 1 2 emptySet 1 (WFset_empty _ _))
    (WFset_erase (fun n => n) 1 _ 2
      (WFset_insert (fun n => n) 1 2 _ 2
        (WFset_insert (fun n => n) 1 2 emptySet 1 (WFset_empty _ _))))

/-- C8: the container returned by insert contains v (count 1 on the
result), the container returned by erase does not contain v (count 0 on
the result), and count only ever returns 0 or 1. -/
theorem insert_contains_erase_removes (hf : α → Nat) (B maxD : Nat)
    (C : HSet α) (v : α) (hwf : WFset hf B C) :
    setCount hf B (setInsert hf B maxD C v) v = 1 ∧
    setCount hf B (setErase hf B C v) v = 0 ∧
    (∀ (D : HSet α) (x : α), setCount hf B D x = 0 ∨ setCount hf B D x = 1) := by
  refine ⟨?_, ?_, ?_⟩
  · unfold setCount
    rw [setMember_insert hf B maxD C v v]
    simp
  · unfold setCount
    rw [setMember_erase hf B C v v hwf]
    simp
  · intro D x
    unfold setCount
    by_cases hm : setMember hf B D x
    · rw [if_pos hm]
      exact Or.inr rfl
    · rw [if_neg hm]
      exact Or.inl rfl

/-- Witness for C8 on the empty container. -/
theorem insert_contains_erase_removes_witness :
    setCount (fun n => n) 1 (setInsert (fun n => n) 1 2 (emptySet : HSet Nat) 3) 3 = 1 ∧
    setCount (fun n => n) 1 (setErase (fun n => n) 1 (emptySet : HSet Nat) 3) 3 = 0 :=
  ⟨(insert_contains_erase_removes (fun n => n) 1 2 emptySet 3 (WFset_empty _ _)).1,
    (insert_contains_erase_removes (fun n => n) 1 2 emptySet 3 (WFset_empty _ _)).2.1⟩

end SetClaims

end ImmerSpec
